import Mathlib

/-!
Verification of the cacheLab set-associative cache simulator (src/csim.c).

The C program replays a memory trace against a simulated cache and counts
hits, misses and evictions, with an LRU replacement policy implemented via
per-line recency counters (`lru_cntr`).  Every definition below is a direct
shallow embedding of the corresponding C code; the C arrays of `assoc` lines
become Lean lists whose length is the associativity, 64-bit machine values
become `Nat` together with an explicit signed reinterpretation where the C
source performs signed arithmetic.
-/

namespace Csim

/-- Embedding of `struct cache_line` (csim.c lines 12-16): a tag (C `long long`,
hence `Int`), a validity flag (C `short` used as boolean) and the LRU recency
counter.  The counter is a `Nat`; the program keeps it in `[0, assoc)`. -/
structure cache_line where
  tag : Int
  valid : Bool
  lru_cntr : Nat
deriving DecidableEq, Repr

instance : Inhabited cache_line := ⟨⟨0, false, 0⟩⟩

/-- Outcome of one data access, as observed by `main` (csim.c lines 107-123):
`Hit` (lookup returned NULL), `MissNoEvict` (returned an invalid line),
`MissWithEvict` (returned a valid line, which is evicted). -/
inductive Outcome where
  | Hit
  | MissNoEvict
  | MissWithEvict
deriving DecidableEq, Repr

/-- Result of `cache_lookup` (csim.c line 135): NULL on a hit, otherwise the
line where the incoming block is to be placed, identified by its index. -/
inductive LookupResult where
  | hit
  | replace (i : Nat)
deriving DecidableEq, Repr

/-- Embedding of `update_lru_cntr` (csim.c lines 168-178): every line whose
counter is strictly below the accessed line's former counter is incremented,
a line at exactly that counter is reset to 0, all others are unchanged. -/
def update_lru_cntr (set : List cache_line) (lru_cntr_accessed : Nat) : List cache_line :=
  set.map fun l =>
    if l.lru_cntr < lru_cntr_accessed then { l with lru_cntr := l.lru_cntr + 1 }
    else if l.lru_cntr = lru_cntr_accessed then { l with lru_cntr := 0 }
    else l

/-- The action of `update_lru_cntr` on a single counter value, used to reason
about the rank permutation. -/
def bump (r0 r : Nat) : Nat :=
  if r < r0 then r + 1 else if r = r0 then 0 else r

/-- Index of the first list element satisfying `p`, mirroring the early-return
`for` loops of `cache_lookup`. -/
def firstIdx {α : Type} (p : α → Bool) : List α → Option Nat
  | [] => none
  | x :: xs => if p x then some 0 else (firstIdx p xs).map (· + 1)

/-- The running maximum scan of `cache_lookup` (csim.c lines 148-160):
`max_lru_cntr` starts at `-1` (a C `short`), and the candidate eviction line
is updated whenever a strictly larger counter is seen. -/
def find_victim_go : List cache_line → Nat → Int × Nat → Int × Nat
  | [], _, acc => acc
  | l :: ls, i, acc =>
    if acc.1 < (l.lru_cntr : Int) then find_victim_go ls (i + 1) ((l.lru_cntr : Int), i)
    else find_victim_go ls (i + 1) acc

/-- Maximum `lru_cntr` over the set together with the index of the line
realising it, exactly as the second loop of `cache_lookup` computes them when
no invalid line interrupts the scan (the only situation where the C code uses
these values). -/
def find_victim (set : List cache_line) : Int × Nat :=
  find_victim_go set 0 (-1, 0)

/-- Embedding of `cache_lookup` (csim.c lines 135-166).  First loop: return
`hit` at the first valid line with a matching tag, after promoting its
counter.  Second loop: return the first invalid line if any, after promoting
its counter; otherwise the line with the maximal counter is the victim and
the promotion is run with counter `assoc - 1` (the asserted maximum). -/
def cache_lookup (set : List cache_line) (tg : Int) : LookupResult × List cache_line :=
  match firstIdx (fun l => l.valid && l.tag == tg) set with
  | some i => (.hit, update_lru_cntr set (set.getD i default).lru_cntr)
  | none =>
    match firstIdx (fun l => !l.valid) set with
    | some i => (.replace i, update_lru_cntr set (set.getD i default).lru_cntr)
    | none => (.replace (find_victim set).2, update_lru_cntr set (set.length - 1))

/-- One access to a set, combining `cache_lookup` with the use `main` makes of
the returned line (csim.c lines 107-123): on a miss the returned line gets the
new tag; if it was invalid it is additionally marked valid (`MissNoEvict`),
otherwise its previous occupant is evicted (`MissWithEvict`). -/
def set_access (set : List cache_line) (tg : Int) : Outcome × List cache_line :=
  match cache_lookup set tg with
  | (.hit, s1) => (.Hit, s1)
  | (.replace i, s1) =>
    let l := s1.getD i default
    if l.valid then (.MissWithEvict, s1.set i { l with tag := tg })
    else (.MissNoEvict, s1.set i { l with tag := tg, valid := true })

/-- The tag evicted by an access, if any: on the `MissWithEvict` path of
`main` the replaced line's previous tag is the evicted block. -/
def evictedTag (set : List cache_line) (tg : Int) : Option Int :=
  match cache_lookup set tg with
  | (.hit, _) => none
  | (.replace i, s1) =>
    let l := s1.getD i default
    if l.valid then some l.tag else none

/-- The rank invariant: the multiset of `lru_cntr` values over the lines of a
set is exactly `{0, ..., E-1}` where `E` is the number of lines. -/
def Inv (set : List cache_line) : Prop :=
  (set.map fun l => l.lru_cntr).Perm (List.range set.length)

instance (set : List cache_line) : Decidable (Inv set) := by
  unfold Inv; infer_instance

/-- The per-set initialization loop of `main` (csim.c lines 78-85): every line
invalid, `lru_cntr` initialized to the line index `j` so that all counters are
distinct; the tag field is left uninitialized by the C code (it is meaningless
while `valid = 0`), modelled here as 0. -/
def init_set (assoc : Nat) : List cache_line :=
  (List.range assoc).map fun j => ⟨0, false, j⟩

/-- The cache: `2^s` sets (csim.c lines 68-76). -/
def init_cache (s assoc : Nat) : List (List cache_line) :=
  List.replicate (2 ^ s) (init_set assoc)

/-- The value of the C `long long address` variable, reinterpreting the 64-bit
pattern read by `%llx` as a signed two's-complement value. -/
def toSigned64 (u : Nat) : Int :=
  if u < 2 ^ 63 then (u : Int) else (u : Int) - 2 ^ 64

/-- C `>>` on a (possibly negative) `long long`: arithmetic shift right,
i.e. flooring division by a power of two. -/
def sshiftr (x : Int) (k : Nat) : Int := Int.fdiv x (2 ^ k)

/-- Embedding of `set_index = (address >> b) & INDEX_MASK` (csim.c line 103).
`address` is a signed `long long`, so `>>` is an arithmetic shift; the bitwise
AND with the nonnegative mask `(1 << s) - 1` extracts the low `s` bits of the
two's-complement value, i.e. the nonnegative residue modulo `2^s`. -/
def set_index_code (addr s b : Nat) : Nat :=
  ((sshiftr (toSigned64 addr) b) % (2 ^ s : Int)).toNat

/-- Embedding of `tag = address >> (s+b)` (csim.c line 104), again an
arithmetic shift of the signed `long long` value. -/
def tag_code (addr s b : Nat) : Int :=
  sshiftr (toSigned64 addr) (s + b)

/-- The address decomposition exactly as claim C8 and spec section 4.1 word
it, on 64-bit unsigned values: `(tag, set_index)` with logical shifts.
Stated from the spec's words, to be compared with `tag_code` and
`set_index_code`, which are translated from the source. -/
def decode_claim (addr s b : Nat) : Nat × Nat :=
  (addr >>> (s + b), (addr >>> b) % 2 ^ s)

/-- Replayer state: the cache plus the three counters of `main`. -/
structure SimState where
  cache : List (List cache_line)
  hits : Nat
  misses : Nat
  evictions : Nat
deriving DecidableEq, Repr

/-- Processing of one parsed trace record by the loop body of `main`
(csim.c lines 93-130): `'I'` records are skipped entirely; otherwise the
address is decoded, the addressed set is accessed, the counters are bumped
according to the outcome, and an `'M'` record gets one extra unconditional
hit for its paired write. -/
def step (s b : Nat) (st : SimState) (c : Char) (addr : Nat) : SimState :=
  if c = 'I' then st
  else
    let si := set_index_code addr s b
    let tg := tag_code addr s b
    let res := set_access (st.cache.getD si []) tg
    let st1 : SimState :=
      match res.1 with
      | .Hit => { st with cache := st.cache.set si res.2, hits := st.hits + 1 }
      | .MissNoEvict => { st with cache := st.cache.set si res.2, misses := st.misses + 1 }
      | .MissWithEvict =>
          { st with cache := st.cache.set si res.2, misses := st.misses + 1,
                    evictions := st.evictions + 1 }
    if c = 'M' then { st1 with hits := st1.hits + 1 } else st1

/-- Replay of a list of already-parsed trace records. -/
def replayEntries (s b : Nat) : SimState → List (Char × Nat) → SimState
  | st, [] => st
  | st, e :: es => replayEntries s b (step s b st e.1 e.2) es

/-- The state at the start of a run: freshly initialized cache, zero
counters. -/
def init_state (s assoc : Nat) : SimState :=
  ⟨init_cache s assoc, 0, 0, 0⟩

/-- Cyclic access experiment for the LRU law: the state of one set after `n`
accesses, where access number `m` touches tag `T m`, starting from a freshly
initialized set of associativity `E`. -/
def run_set (T : Nat → Int) (E : Nat) : Nat → List cache_line
  | 0 => init_set E
  | n + 1 => (set_access (run_set T E n) (T n)).2

/-- Two alternating tags, used as a concrete instance of a cyclic access
pattern with `E = 1`. -/
def T0 (m : Nat) : Int := ((m % 2 : Nat) : Int)

/-- Every set of the cache has `E` lines and satisfies the rank
invariant. -/
def CacheOk (E : Nat) (c : List (List cache_line)) : Prop :=
  ∀ st ∈ c, st.length = E ∧ Inv st

/-- State of one set during the filling phase of the cyclic experiment:
after `n ≤ E` accesses the first `n` lines hold tags `T 0, ..., T (n-1)` with
counters `n-1-j`, the rest are still invalid with their initial counters. -/
def FillP (T : Nat → Int) (E : Nat) (st : List cache_line) (n : Nat) : Prop :=
  st.length = E ∧ ∀ j, j < E →
    (j < n → (st.getD j default).valid = true ∧ (st.getD j default).tag = T j ∧
      (st.getD j default).lru_cntr = n - 1 - j) ∧
    (n ≤ j → (st.getD j default).valid = false ∧ (st.getD j default).lru_cntr = j)

/-- Steady state of the cyclic experiment: after `n ≥ E` accesses every line
is valid and the line of recency rank `r` holds the tag accessed at step
`n - 1 - r`. -/
def SteadyP (T : Nat → Int) (E : Nat) (st : List cache_line) (n : Nat) : Prop :=
  st.length = E ∧ ∀ j, j < E →
    (st.getD j default).valid = true ∧ (st.getD j default).lru_cntr < E ∧
    (st.getD j default).tag = T (n - 1 - (st.getD j default).lru_cntr)

/-- C `isspace` characters, as skipped by whitespace directives in the
`fscanf` format string of csim.c line 93. -/
def isWS (c : Char) : Bool :=
  c = ' ' || c = '\t' || c = '\n' || c = '\x0b' || c = '\x0c' || c = '\r'

/-- Consume leading whitespace of the input stream. -/
def skipWS : List Char → List Char
  | [] => []
  | c :: cs => if isWS c then skipWS cs else c :: cs

/-- Value of a hexadecimal digit character, if it is one. -/
def hexVal (c : Char) : Option Nat :=
  if '0' ≤ c ∧ c ≤ '9' then some (c.toNat - '0'.toNat)
  else if 'a' ≤ c ∧ c ≤ 'f' then some (c.toNat - 'a'.toNat + 10)
  else if 'A' ≤ c ∧ c ≤ 'F' then some (c.toNat - 'A'.toNat + 10)
  else none

/-- Decimal digit test, for the `%*d` directive. -/
def isDec (c : Char) : Bool := '0' ≤ c && c ≤ '9'

/-- Greedy accumulation of hex digits into a 64-bit unsigned value, reducing
modulo `2^64` as the C `unsigned long long` conversion does on the stored
bit pattern. -/
def parseHexLoop : Nat → List Char → Nat × List Char
  | acc, [] => (acc, [])
  | acc, c :: cs =>
    match hexVal c with
    | some d => parseHexLoop ((acc * 16 + d) % 2 ^ 64) cs
    | none => (acc, c :: cs)

/-- The `%llx` conversion applied at the current position (whitespace already
skipped): it fails unless at least one hex digit is present.  The optional
`0x` prefix production is irrelevant to the trace format (addresses carry no
prefix) and is not modelled. -/
def parseHex : List Char → Option (Nat × List Char)
  | [] => none
  | c :: cs =>
    match hexVal c with
    | none => none
    | some d => some (parseHexLoop (d % 2 ^ 64) cs)

/-- Drop a maximal run of decimal digits (the `%*d` directive after its
whitespace skip; on a matching failure no digit is consumed and the
suppressed conversion does not affect the 2 items already assigned). -/
def dropDec : List Char → List Char
  | [] => []
  | c :: cs => if isDec c then dropDec cs else c :: cs

/-- The suppressed tail `%*c %*d` of the format string: consume one
character (the comma of a well-formed line) if any, then skip whitespace and
a run of decimal digits.  Whether this tail matches or not, `fscanf` has
already assigned 2 items, so the loop of `main` continues either way. -/
def scanTail (cs : List Char) : List Char :=
  match cs with
  | [] => []
  | _ :: cs3 => dropDec (skipWS cs3)

/-- One evaluation of `fscanf(tracefp, " %c %llx %*c %*d", ...)` (csim.c line
93) on the remaining input: skip whitespace and read the access-type
character, skip whitespace and read a hex address; `none` when fewer than
these 2 items can be assigned (end of input or unparsable address), in which
case the `while` loop of `main` terminates. -/
def scanEntry (cs : List Char) : Option (Char × Nat × List Char) :=
  match skipWS cs with
  | [] => none
  | c :: cs1 =>
    match parseHex (skipWS cs1) with
    | none => none
    | some (a, cs2) => some (c, a, scanTail cs2)

/-- Fuel-indexed replay loop over the raw character stream; each successful
scan consumes at least one character, so fuel `length + 1` suffices. -/
def replayAux (s b : Nat) : Nat → List Char → SimState → SimState
  | 0, _, st => st
  | fuel + 1, cs, st =>
    match scanEntry cs with
    | none => st
    | some (c, a, rest) => replayAux s b fuel rest (step s b st c a)

/-- The `while (fscanf(...) == 2)` loop of `main` (csim.c lines 93-130) over
a raw trace: scan records until a scan fails, processing each one. -/
def replayChars (s b : Nat) (cs : List Char) (st : SimState) : SimState :=
  replayAux s b (cs.length + 1) cs st

/-- Skip a run of space characters (the trace format separates the kind
letter from the address by one or more spaces). -/
def skipSpacesL : List Char → List Char
  | [] => []
  | c :: cs => if c = ' ' then skipSpacesL cs else c :: cs

/-- Nonempty all-decimal string test, for the access-size column. -/
def decNonempty (cs : List Char) : Bool :=
  !cs.isEmpty && cs.all isDec

/-- Modelled from the spec: parsing of one trace line per section 6 of the
spec, used only to state the skip-and-continue policy that claim C7 ascribes
to the replayer.  A line is an access-kind letter in `{I, L, S, M}`, one or
more spaces, a hex address, and for non-`I` kinds a comma and a decimal
size; anything else is a `MalformedTraceEntry`. -/
def parseLine (cs : List Char) : Option (Char × Nat) :=
  match cs with
  | [] => none
  | k :: r0 =>
    if k = 'I' || k = 'L' || k = 'S' || k = 'M' then
      match r0 with
      | ' ' :: r1 =>
        match parseHex (skipSpacesL r1) with
        | some (a, r2) =>
          if k = 'I' then (if r2.isEmpty then some (k, a) else none)
          else
            match r2 with
            | ',' :: r3 => if decNonempty r3 then some (k, a) else none
            | _ => none
        | none => none
      | _ => none
    else none

/-- Split the raw trace into lines at newline characters. -/
def splitLinesGo : List Char → List Char → List (List Char)
  | [], acc => [acc.reverse]
  | c :: cs, acc =>
    if c = '\n' then acc.reverse :: splitLinesGo cs [] else splitLinesGo cs (c :: acc)

/-- All lines of the raw trace. -/
def splitLines (cs : List Char) : List (List Char) := splitLinesGo cs []

/-- Modelled from the spec's words for claim C7: a replayer that parses each
line independently, skips any malformed line, and continues with the
following lines (the skip-and-continue failure policy the claim describes).
To be compared with `replayChars`, which is translated from the source. -/
def spec_replay (s b : Nat) (st : SimState) (cs : List Char) : SimState :=
  (splitLines cs).foldl
    (fun st line =>
      match parseLine line with
      | some (c, a) => step s b st c a
      | none => st) st

/-! ### Generic list helper lemmas -/

theorem getD_indep {α : Type} (xs : List α) (i : Nat) (h : i < xs.length) (d1 d2 : α) :
    xs.getD i d1 = xs.getD i d2 := by
  induction xs generalizing i with
  | nil => simp at h
  | cons x xs ih =>
    cases i with
    | zero => rfl
    | succ j => simpa using ih j (by simpa using h)

theorem getD_map_default {α β : Type} (f : α → β) (xs : List α) (i : Nat) (d : α) :
    (xs.map f).getD i (f d) = f (xs.getD i d) := by
  induction xs generalizing i with
  | nil => rfl
  | cons x xs ih => cases i with
    | zero => rfl
    | succ j => simpa using ih j

theorem getD_map_lt {α β : Type} (f : α → β) (xs : List α) (i : Nat)
    (h : i < xs.length) (d : α) (e : β) :
    (xs.map f).getD i e = f (xs.getD i d) := by
  rw [getD_indep (xs.map f) i (by simpa using h) e (f d), getD_map_default]

theorem getD_mem {α : Type} (xs : List α) (i : Nat) (h : i < xs.length) (d : α) :
    xs.getD i d ∈ xs := by
  induction xs generalizing i with
  | nil => simp at h
  | cons x xs ih =>
    cases i with
    | zero => simp
    | succ j =>
      simp only [List.getD_cons_succ]
      exact List.mem_cons_of_mem _ (ih j (by simpa using h))

theorem mem_getD {α : Type} (xs : List α) (x : α) (d : α) (h : x ∈ xs) :
    ∃ i, i < xs.length ∧ x = xs.getD i d := by
  induction xs with
  | nil => simp at h
  | cons y ys ih =>
    rcases List.mem_cons.mp h with rfl | hx
    · exact ⟨0, by simp, rfl⟩
    · obtain ⟨i, hi, hx⟩ := ih hx
      exact ⟨i + 1, by simpa using hi, by simpa using hx⟩

theorem getD_set_self {α : Type} (xs : List α) (i : Nat) (a d : α) (h : i < xs.length) :
    (xs.set i a).getD i d = a := by
  induction xs generalizing i with
  | nil => simp at h
  | cons x xs ih =>
    cases i with
    | zero => rfl
    | succ j => simpa using ih j (by simpa using h)

theorem getD_set_ne {α : Type} (xs : List α) (i j : Nat) (a d : α) (h : j ≠ i) :
    (xs.set i a).getD j d = xs.getD j d := by
  induction xs generalizing i j with
  | nil => simp
  | cons x xs ih =>
    cases i with
    | zero => cases j with
      | zero => exact absurd rfl h
      | succ j' => simp
    | succ i' => cases j with
      | zero => rfl
      | succ j' => simpa using ih i' j' (fun hc => h (by simp [hc]))

theorem set_getD_cancel {α : Type} (xs : List α) (i : Nat) (d : α) (h : i < xs.length) :
    xs.set i (xs.getD i d) = xs := by
  induction xs generalizing i with
  | nil => rfl
  | cons x xs ih =>
    cases i with
    | zero => rfl
    | succ j => simpa using ih j (by simpa using h)

theorem set_out {α : Type} (xs : List α) (i : Nat) (a : α) (h : xs.length ≤ i) :
    xs.set i a = xs := by
  induction xs generalizing i with
  | nil => rfl
  | cons x xs ih =>
    cases i with
    | zero => simp at h
    | succ j => simpa using ih j (by simpa using h)

theorem mem_set_sub {α : Type} (xs : List α) (i : Nat) (a x : α) (h : x ∈ xs.set i a) :
    x = a ∨ x ∈ xs := by
  induction xs generalizing i with
  | nil => simp at h
  | cons y ys ih =>
    cases i with
    | zero =>
      rcases List.mem_cons.mp h with rfl | hx
      · exact Or.inl rfl
      · exact Or.inr (List.mem_cons_of_mem _ hx)
    | succ j =>
      rcases List.mem_cons.mp h with rfl | hx
      · exact Or.inr (List.mem_cons_self _ _)
      · rcases ih j hx with h' | h'
        · exact Or.inl h'
        · exact Or.inr (List.mem_cons_of_mem _ h')

theorem map_set_comm {α β : Type} (f : α → β) (xs : List α) (i : Nat) (a : α) :
    (xs.set i a).map f = (xs.map f).set i (f a) := by
  induction xs generalizing i with
  | nil => rfl
  | cons x xs ih =>
    cases i with
    | zero => rfl
    | succ j => simpa using ih j

theorem nodup_getD_inj {α : Type} (xs : List α) (d : α) (hnd : xs.Nodup) :
    ∀ i j, i < xs.length → j < xs.length → xs.getD i d = xs.getD j d → i = j := by
  induction xs with
  | nil => intro i j hi; simp at hi
  | cons x xs ih =>
    obtain ⟨hx, hnd'⟩ := List.nodup_cons.mp hnd
    intro i j hi hj heq
    cases i with
    | zero => cases j with
      | zero => rfl
      | succ j' =>
        have heq' : x = xs.getD j' d := by simpa using heq
        exact absurd (by rw [heq']; exact getD_mem xs j' (by simpa using hj) d) hx
    | succ i' => cases j with
      | zero =>
        have heq' : x = xs.getD i' d := by simpa using heq.symm
        exact absurd (by rw [heq']; exact getD_mem xs i' (by simpa using hi) d) hx
      | succ j' =>
        have := ih hnd' i' j' (by simpa using hi) (by simpa using hj) (by simpa using heq)
        simp [this]

/-! ### Lemmas about `firstIdx` -/

theorem firstIdx_eq_none_iff {α : Type} (p : α → Bool) (xs : List α) :
    firstIdx p xs = none ↔ ∀ x ∈ xs, p x = false := by
  induction xs with
  | nil => simp [firstIdx]
  | cons x xs ih =>
    by_cases hp : p x = true
    · simp [firstIdx, hp]
    · have hcons : firstIdx p (x :: xs) = (firstIdx p xs).map (· + 1) := by
        simp [firstIdx, hp]
      rw [hcons, Option.map_eq_none', ih]
      constructor
      · intro h y hy
        rcases List.mem_cons.mp hy with rfl | hy'
        · simpa using hp
        · exact h y hy'
      · intro h y hy; exact h y (List.mem_cons_of_mem _ hy)

theorem firstIdx_eq_some_iff {α : Type} [Inhabited α] (p : α → Bool) (xs : List α) (i : Nat) :
    firstIdx p xs = some i ↔
      i < xs.length ∧ p (xs.getD i default) = true ∧
        ∀ j, j < i → p (xs.getD j default) = false := by
  induction xs generalizing i with
  | nil => simp [firstIdx]
  | cons x xs ih =>
    by_cases hp : p x = true
    · have hcons : firstIdx p (x :: xs) = some 0 := by simp [firstIdx, hp]
      cases i with
      | zero => simp [hcons, hp]
      | succ k =>
        rw [hcons]
        constructor
        · intro h; simp at h
        · rintro ⟨-, -, hall⟩
          have := hall 0 (Nat.succ_pos k)
          rw [List.getD_cons_zero, hp] at this
          cases this
    · have hcons : firstIdx p (x :: xs) = (firstIdx p xs).map (· + 1) := by
        simp [firstIdx, hp]
      cases i with
      | zero =>
        rw [hcons]
        constructor
        · intro h
          rcases hfi : firstIdx p xs with _ | i' <;> simp [hfi] at h
        · rintro ⟨-, h2, -⟩
          rw [List.getD_cons_zero] at h2
          exact absurd h2 hp
      | succ k =>
        rw [hcons]
        constructor
        · intro h
          obtain ⟨i', hi', heq⟩ : ∃ i', firstIdx p xs = some i' ∧ i' + 1 = k + 1 := by
            rcases hfi : firstIdx p xs with _ | i'
            · rw [hfi] at h; simp at h
            · rw [hfi] at h
              exact ⟨i', rfl, by simpa using h⟩
          have hik : i' = k := by omega
          subst hik
          obtain ⟨h1, h2, h3⟩ := (ih i').mp hi'
          refine ⟨by simpa using h1, by simpa using h2, ?_⟩
          intro j hj
          cases j with
          | zero => simpa using hp
          | succ j' =>
            simpa using h3 j' (by omega)
        · rintro ⟨h1, h2, h3⟩
          have : firstIdx p xs = some k := by
            refine (ih k).mpr ⟨by simpa using h1, by simpa using h2, ?_⟩
            intro j hj
            simpa using h3 (j + 1) (by omega)
          simp [this]

theorem firstIdx_isSome_of_mem {α : Type} (p : α → Bool) (xs : List α) (x : α)
    (hx : x ∈ xs) (hp : p x = true) : ∃ i, firstIdx p xs = some i := by
  rcases h : firstIdx p xs with _ | i
  · rw [firstIdx_eq_none_iff] at h
    rw [h x hx] at hp
    cases hp
  · exact ⟨i, rfl⟩

/-! ### Lemmas about `update_lru_cntr` -/

theorem update_length (set : List cache_line) (r0 : Nat) :
    (update_lru_cntr set r0).length = set.length := by
  simp [update_lru_cntr]

theorem update_getD (set : List cache_line) (r0 i : Nat) (h : i < set.length) :
    (update_lru_cntr set r0).getD i default =
      (if (set.getD i default).lru_cntr < r0 then
        { set.getD i default with lru_cntr := (set.getD i default).lru_cntr + 1 }
      else if (set.getD i default).lru_cntr = r0 then
        { set.getD i default with lru_cntr := 0 }
      else set.getD i default) := by
  unfold update_lru_cntr
  rw [getD_map_lt _ set i h default default]

theorem update_getD_tag (set : List cache_line) (r0 i : Nat) (h : i < set.length) :
    ((update_lru_cntr set r0).getD i default).tag = (set.getD i default).tag := by
  rw [update_getD set r0 i h]
  split <;> [rfl; split <;> rfl]

theorem update_getD_valid (set : List cache_line) (r0 i : Nat) (h : i < set.length) :
    ((update_lru_cntr set r0).getD i default).valid = (set.getD i default).valid := by
  rw [update_getD set r0 i h]
  split <;> [rfl; split <;> rfl]

theorem update_getD_lru (set : List cache_line) (r0 i : Nat) (h : i < set.length) :
    ((update_lru_cntr set r0).getD i default).lru_cntr =
      bump r0 (set.getD i default).lru_cntr := by
  rw [update_getD set r0 i h, bump]
  split <;> [rfl; split <;> rfl]

theorem update_map_tag_valid (set : List cache_line) (r0 : Nat) :
    (update_lru_cntr set r0).map (fun l => (l.tag, l.valid)) =
      set.map (fun l => (l.tag, l.valid)) := by
  unfold update_lru_cntr
  rw [List.map_map]
  apply List.map_congr_left
  intro l _
  simp only [Function.comp_apply]
  split <;> [rfl; split <;> rfl]

theorem update_map_lru (set : List cache_line) (r0 : Nat) :
    (update_lru_cntr set r0).map (fun l => l.lru_cntr) =
      (set.map fun l => l.lru_cntr).map (bump r0) := by
  unfold update_lru_cntr
  rw [List.map_map, List.map_map]
  apply List.map_congr_left
  intro l _
  simp only [Function.comp_apply, bump]
  split <;> [rfl; split <;> rfl]

/-- `bump r0` permutes `{0, ..., E-1}` whenever `r0 < E`: the counters below
`r0` shift up by one, `r0` itself wraps to 0, the rest are fixed. -/
theorem bump_range_perm (E r0 : Nat) (h : r0 < E) :
    ((List.range E).map (bump r0)).Perm (List.range E) := by
  induction E with
  | zero => simp at h
  | succ n ih =>
    rcases Nat.lt_succ_iff_lt_or_eq.mp h with h' | h'
    · have hn : bump r0 n = n := by
        unfold bump
        rw [if_neg (by omega), if_neg (by omega)]
      rw [List.range_succ, List.map_append]
      simp only [List.map_cons, List.map_nil, hn]
      exact (ih h').append_right [n]
    · subst h'
      have hmap : (List.range r0).map (bump r0) = (List.range r0).map (· + 1) := by
        apply List.map_congr_left
        intro x hx
        rw [List.mem_range] at hx
        unfold bump
        rw [if_pos hx]
      have hn : bump r0 r0 = 0 := by
        unfold bump
        rw [if_neg (by omega), if_pos rfl]
      have hL : (List.range (r0 + 1)).map (bump r0) = (List.range r0).map (· + 1) ++ [0] := by
        rw [List.range_succ, List.map_append, hmap]
        simp [hn]
      rw [hL]
      have hp1 : ((List.range r0).map (· + 1) ++ [0]).Perm
          ([0] ++ (List.range r0).map (· + 1)) := List.perm_append_comm
      have hp2 : [0] ++ (List.range r0).map (· + 1) = List.range (r0 + 1) := by
        rw [List.range_succ_eq_map]
        simp [Nat.succ_eq_add_one]
      rw [hp2] at hp1
      exact hp1

/-- `update_lru_cntr` preserves the rank invariant for any in-range former
counter value. -/
theorem update_inv (set : List cache_line) (r0 : Nat) (hinv : Inv set)
    (hr : r0 < set.length) : Inv (update_lru_cntr set r0) := by
  unfold Inv at hinv ⊢
  rw [update_length, update_map_lru]
  exact ((hinv.map (bump r0)).trans (bump_range_perm set.length r0 hr))

/-- Writing a line with an unchanged counter (the tag/valid writes of `main`)
preserves the rank invariant. -/
theorem set_write_inv (s1 : List cache_line) (i : Nat) (l' : cache_line)
    (hinv : Inv s1) (hlru : l'.lru_cntr = (s1.getD i default).lru_cntr) :
    Inv (s1.set i l') := by
  by_cases hi : i < s1.length
  · unfold Inv at hinv ⊢
    have hgd : (s1.map fun l => l.lru_cntr).getD i 0 = (s1.getD i default).lru_cntr :=
      getD_map_lt (fun l => l.lru_cntr) s1 i hi default 0
    rw [List.length_set, map_set_comm, hlru, ← hgd,
      set_getD_cancel _ i 0 (by simpa using hi)]
    exact hinv
  · rw [set_out s1 i l' (by omega)]
    exact hinv

/-- Any counter occurring in a set satisfying the invariant is `< E`. -/
theorem rank_lt_of_inv (set : List cache_line) (hinv : Inv set) (l : cache_line)
    (hl : l ∈ set) : l.lru_cntr < set.length := by
  have hmem : l.lru_cntr ∈ set.map fun l => l.lru_cntr := List.mem_map_of_mem _ hl
  have := hinv.mem_iff.mp hmem
  simpa using this

/-- Under the invariant, distinct lines have distinct counters. -/
theorem inv_rank_inj (set : List cache_line) (hinv : Inv set) (i j : Nat)
    (hi : i < set.length) (hj : j < set.length)
    (heq : (set.getD i default).lru_cntr = (set.getD j default).lru_cntr) : i = j := by
  have hnd : (set.map fun l => l.lru_cntr).Nodup :=
    hinv.nodup_iff.mpr (List.nodup_range _)
  have h1 : (set.map fun l => l.lru_cntr).getD i 0 = (set.map fun l => l.lru_cntr).getD j 0 := by
    rw [getD_map_lt (fun l => l.lru_cntr) set i hi default 0,
      getD_map_lt (fun l => l.lru_cntr) set j hj default 0]
    exact heq
  exact nodup_getD_inj _ 0 hnd i j (by simpa using hi) (by simpa using hj) h1

/-! ### Lemmas about `find_victim` -/

theorem find_victim_go_fst (ls : List cache_line) :
    ∀ (i : Nat) (m : Int) (idx : Nat),
      (find_victim_go ls i (m, idx)).1 =
        ls.foldl (fun m l => max m (l.lru_cntr : Int)) m := by
  induction ls with
  | nil => intro i m idx; rfl
  | cons l ls ih =>
    intro i m idx
    by_cases h : m < (l.lru_cntr : Int)
    · have hstep : find_victim_go (l :: ls) i (m, idx) =
          find_victim_go ls (i + 1) ((l.lru_cntr : Int), i) := by
        simp [find_victim_go, h]
      rw [hstep, ih (i + 1) (l.lru_cntr : Int) i]
      simp only [List.foldl_cons]
      rw [max_eq_right (le_of_lt h)]
    · have hstep : find_victim_go (l :: ls) i (m, idx) =
          find_victim_go ls (i + 1) (m, idx) := by
        simp [find_victim_go, h]
      rw [hstep, ih (i + 1) m idx]
      simp only [List.foldl_cons]
      rw [max_eq_left (not_lt.mp h)]

theorem find_victim_go_snd (ls : List cache_line) :
    ∀ (i : Nat) (m : Int) (idx : Nat),
      find_victim_go ls i (m, idx) = (m, idx) ∨
        ∃ j, j < ls.length ∧
          ((ls.getD j default).lru_cntr : Int) = (find_victim_go ls i (m, idx)).1 ∧
          (find_victim_go ls i (m, idx)).2 = i + j := by
  induction ls with
  | nil => intro i m idx; exact Or.inl rfl
  | cons l ls ih =>
    intro i m idx
    by_cases h : m < (l.lru_cntr : Int)
    · have hstep : find_victim_go (l :: ls) i (m, idx) =
          find_victim_go ls (i + 1) ((l.lru_cntr : Int), i) := by
        simp [find_victim_go, h]
      rcases ih (i + 1) (l.lru_cntr : Int) i with h' | ⟨j, hj, hv, hidx⟩
      · right
        refine ⟨0, by simp, ?_, ?_⟩
        · rw [hstep, h']; simp
        · rw [hstep, h']; simp
      · right
        refine ⟨j + 1, by simpa using hj, ?_, ?_⟩
        · rw [hstep]
          simpa using hv
        · rw [hstep, hidx]
          omega
    · have hstep : find_victim_go (l :: ls) i (m, idx) = find_victim_go ls (i + 1) (m, idx) := by
        simp [find_victim_go, h]
      rcases ih (i + 1) m idx with h' | ⟨j, hj, hv, hidx⟩
      · left; rw [hstep, h']
      · right
        refine ⟨j + 1, by simpa using hj, ?_, ?_⟩
        · rw [hstep]; simpa using hv
        · rw [hstep, hidx]; omega

/-- Under the rank invariant the maximum counter over the whole set is
exactly `E - 1`, the value the C code asserts (csim.c line 163). -/
theorem foldl_max_lru (set : List cache_line) (hinv : Inv set) :
    set.foldl (fun m l => max m (l.lru_cntr : Int)) (-1) = (set.length : Int) - 1 := by
  have h1 : set.foldl (fun m l => max m (l.lru_cntr : Int)) (-1) =
      (set.map fun l => (l.lru_cntr : Int)).foldl max (-1) := by
    rw [List.foldl_map]
  have h2 : (set.map fun l => (l.lru_cntr : Int)).Perm
      ((List.range set.length).map fun (n : Nat) => (n : Int)) := by
    have hm := List.Perm.map (fun (n : Nat) => (n : Int)) hinv
    simpa [List.map_map, Function.comp] using hm
  have h3 : (set.map fun l => (l.lru_cntr : Int)).foldl max (-1) =
      ((List.range set.length).map fun (n : Nat) => (n : Int)).foldl max (-1) :=
    h2.foldl_eq' (fun x _ y _ z => by rw [max_assoc, max_comm x y, ← max_assoc]) (-1)
  have h4 : ∀ n : Nat,
      ((List.range n).map fun (k : Nat) => (k : Int)).foldl max (-1) = (n : Int) - 1 := by
    intro n
    induction n with
    | zero => simp
    | succ k ih =>
      rw [List.range_succ, List.map_append, List.foldl_append, ih]
      have hmax : max ((k : Int) - 1) (k : Int) = (k : Int) := max_eq_right (by omega)
      simp only [List.map_cons, List.map_nil, List.foldl_cons, List.foldl_nil, hmax]
      push_cast
      ring
  rw [h1, h3, h4]

/-- Under the rank invariant, on a nonempty set the victim scan finds the
(unique) line with counter `E - 1`, and its recorded maximum is `E - 1`. -/
theorem find_victim_inv (set : List cache_line) (hinv : Inv set)
    (hlen : 1 ≤ set.length) :
    ∃ j, j < set.length ∧ find_victim set = ((set.length : Int) - 1, j) ∧
      (set.getD j default).lru_cntr = set.length - 1 := by
  have hfst : (find_victim set).1 = (set.length : Int) - 1 := by
    rw [find_victim, find_victim_go_fst set 0 (-1) 0, foldl_max_lru set hinv]
  rcases find_victim_go_snd set 0 (-1) 0 with h | ⟨j, hj, hv, hidx⟩
  · exfalso
    have : (find_victim set).1 = -1 := by rw [find_victim, h]
    rw [hfst] at this
    omega
  · refine ⟨j, hj, ?_, ?_⟩
    · have h2 : (find_victim set).2 = j := by rw [find_victim, hidx]; omega
      have h1 := hfst
      rcases hfv : find_victim set with ⟨a, c⟩
      rw [hfv] at h1 h2
      simp at h1 h2
      rw [h1, h2]
    · have : ((set.getD j default).lru_cntr : Int) = (set.length : Int) - 1 := by
        rw [find_victim] at hfst
        rw [hv, hfst]
      omega

theorem getD_out {α : Type} (xs : List α) (i : Nat) (d : α) (h : xs.length ≤ i) :
    xs.getD i d = d := by
  induction xs generalizing i with
  | nil => cases i <;> rfl
  | cons x xs ih =>
    cases i with
    | zero => simp at h
    | succ j => simpa using ih j (by simpa using h)

/-! ### `set_access` preserves the rank invariant -/

theorem set_access_nil (tg : Int) : set_access [] tg = (.MissNoEvict, []) := rfl

theorem set_access_inv (set : List cache_line) (tg : Int) (hinv : Inv set) :
    Inv (set_access set tg).2 ∧ ((set_access set tg).2).length = set.length := by
  rcases h1 : firstIdx (fun l => l.valid && l.tag == tg) set with _ | i
  · rcases h2 : firstIdx (fun l => !l.valid) set with _ | i
    · by_cases hl : set.length = 0
      · have hnil : set = [] := List.length_eq_zero.mp hl
        subst hnil
        simp [set_access_nil, Inv]
      · have hr : set.length - 1 < set.length := by omega
        have hinv1 : Inv (update_lru_cntr set (set.length - 1)) :=
          update_inv set (set.length - 1) hinv hr
        have hcl : cache_lookup set tg =
            (.replace (find_victim set).2, update_lru_cntr set (set.length - 1)) := by
          rw [cache_lookup, h1, h2]
        rw [set_access, hcl]
        dsimp only
        split
        · exact ⟨set_write_inv _ _ _ hinv1 rfl, by rw [List.length_set, update_length]⟩
        · exact ⟨set_write_inv _ _ _ hinv1 rfl, by rw [List.length_set, update_length]⟩
    · obtain ⟨hi, -, -⟩ := (firstIdx_eq_some_iff _ set i).mp h2
      have hr : (set.getD i default).lru_cntr < set.length :=
        rank_lt_of_inv set hinv _ (getD_mem set i hi default)
      have hinv1 : Inv (update_lru_cntr set (set.getD i default).lru_cntr) :=
        update_inv set _ hinv hr
      have hcl : cache_lookup set tg =
          (.replace i, update_lru_cntr set (set.getD i default).lru_cntr) := by
        rw [cache_lookup, h1, h2]
      rw [set_access, hcl]
      dsimp only
      split
      · exact ⟨set_write_inv _ _ _ hinv1 rfl, by rw [List.length_set, update_length]⟩
      · exact ⟨set_write_inv _ _ _ hinv1 rfl, by rw [List.length_set, update_length]⟩
  · obtain ⟨hi, -, -⟩ := (firstIdx_eq_some_iff _ set i).mp h1
    have hr : (set.getD i default).lru_cntr < set.length :=
      rank_lt_of_inv set hinv _ (getD_mem set i hi default)
    have hcl : cache_lookup set tg =
        (.hit, update_lru_cntr set (set.getD i default).lru_cntr) := by
      rw [cache_lookup, h1]
    rw [set_access, hcl]
    exact ⟨update_inv set _ hinv hr, update_length set _⟩

/-! ### The cache-wide invariant along a replay -/

theorem init_set_length (E : Nat) : (init_set E).length = E := by
  simp [init_set]

theorem init_set_inv (E : Nat) : Inv (init_set E) := by
  unfold Inv init_set
  rw [List.map_map, List.length_map, List.length_range]
  have hcomp : ((fun l : cache_line => l.lru_cntr) ∘ fun j => (⟨0, false, j⟩ : cache_line)) =
      fun j => j := rfl
  rw [hcomp, List.map_id']

theorem init_cache_ok (s E : Nat) : CacheOk E (init_cache s E) := by
  intro st hst
  have h := List.eq_of_mem_replicate hst
  subst h
  exact ⟨init_set_length E, init_set_inv E⟩

theorem step_cache_ok (s b E : Nat) (st : SimState) (c : Char) (a : Nat)
    (hok : CacheOk E st.cache) : CacheOk E (step s b st c a).cache := by
  unfold step
  by_cases hI : c = 'I'
  · simpa [hI] using hok
  · rw [if_neg hI]
    dsimp only
    have hmain : ∀ x ∈ st.cache.set (set_index_code a s b)
        (set_access (st.cache.getD (set_index_code a s b) []) (tag_code a s b)).2,
        x.length = E ∧ Inv x := by
      intro x hx
      by_cases hsi : set_index_code a s b < st.cache.length
      · rcases mem_set_sub _ _ _ _ hx with rfl | hx'
        · have hmem := getD_mem st.cache _ hsi []
          obtain ⟨hlen, hinv⟩ := hok _ hmem
          obtain ⟨hinv', hlen'⟩ := set_access_inv _ (tag_code a s b) hinv
          exact ⟨hlen'.trans hlen, hinv'⟩
        · exact hok _ hx'
      · rw [set_out _ _ _ (by omega)] at hx
        exact hok _ hx
    rcases hout : (set_access (st.cache.getD (set_index_code a s b) []) (tag_code a s b)).1 with
      _ | _ | _ <;> by_cases hM : c = 'M' <;> simp only [hout, hM, reduceIte] <;>
      first
        | exact hmain
        | (intro x hx; exact hmain x hx)

theorem replay_cache_ok (s b E : Nat) (es : List (Char × Nat)) (st : SimState)
    (hok : CacheOk E st.cache) : CacheOk E (replayEntries s b st es).cache := by
  induction es generalizing st with
  | nil => exact hok
  | cons e es ih =>
    exact ih _ (step_cache_ok s b E st e.1 e.2 hok)

/-- C2: for every Set, at initialization and after every access performed
during a run, the multiset of `lru_cntr` values over its `E` lines is exactly
`{0, 1, ..., E-1}` — a permutation with no duplicate and no missing value.
(Quantifying over every parsed trace covers every reachable state; the empty
trace is the initialization state.) -/
theorem c2_rank_invariant (s b E : Nat) (es : List (Char × Nat)) :
    ∀ set0 ∈ (replayEntries s b (init_state s E) es).cache,
      set0.length = E ∧ (set0.map fun l => l.lru_cntr).Perm (List.range E) := by
  intro set0 h0
  obtain ⟨hlen, hinv⟩ := replay_cache_ok s b E es (init_state s E) (init_cache_ok s E) set0 h0
  refine ⟨hlen, ?_⟩
  rw [← hlen]
  exact hinv

theorem c2_witness :
    (init_set 1).length = 1 ∧
      ((init_set 1).map fun l => l.lru_cntr).Perm (List.range 1) :=
  c2_rank_invariant 0 0 1 [] (init_set 1) (by decide)

/-- C3: the rank-promotion step with former rank `r0` increments every
counter strictly below `r0`, resets a counter equal to `r0` to 0, and leaves
every other counter (and every tag and valid flag) unchanged. -/
theorem c3_rank_promotion (set : List cache_line) (r0 : Nat) :
    (update_lru_cntr set r0).length = set.length ∧
    ∀ i, i < set.length →
      ((update_lru_cntr set r0).getD i default).lru_cntr =
        (if (set.getD i default).lru_cntr < r0 then (set.getD i default).lru_cntr + 1
         else if (set.getD i default).lru_cntr = r0 then 0
         else (set.getD i default).lru_cntr) ∧
      ((update_lru_cntr set r0).getD i default).tag = (set.getD i default).tag ∧
      ((update_lru_cntr set r0).getD i default).valid = (set.getD i default).valid := by
  refine ⟨update_length set r0, fun i hi =>
    ⟨?_, update_getD_tag set r0 i hi, update_getD_valid set r0 i hi⟩⟩
  rw [update_getD_lru set r0 i hi]
  simp only [bump]

theorem c3_witness :
    ((update_lru_cntr [⟨7, true, 0⟩, ⟨9, true, 1⟩] 1).getD 0 default).lru_cntr = 1 := by
  have h := (c3_rank_promotion [⟨7, true, 0⟩, ⟨9, true, 1⟩] 1).2 0 (by decide)
  simpa using h.1

/-- C6: in every reachable state of a run, whenever the eviction branch's
precondition holds (every line of the addressed set valid), the maximum
`lru_cntr` computed by the scan of `cache_lookup` is exactly `E - 1`, so the
assertion `assert(max_lru_cntr == assoc-1)` (csim.c line 163) never fails. -/
theorem c6_eviction_max_rank (s b E : Nat) (es : List (Char × Nat)) (hE : 1 ≤ E) :
    ∀ set0 ∈ (replayEntries s b (init_state s E) es).cache,
      (∀ l ∈ set0, l.valid = true) → (find_victim set0).1 = (E : Int) - 1 := by
  intro set0 h0 _
  obtain ⟨hlen, hinv⟩ := replay_cache_ok s b E es (init_state s E) (init_cache_ok s E) set0 h0
  rw [find_victim, find_victim_go_fst set0 0 (-1) 0, foldl_max_lru set0 hinv, hlen]

theorem c6_witness : (find_victim [⟨0, true, 0⟩]).1 = (1 : Int) - 1 :=
  c6_eviction_max_rank 0 0 1 [('L', 0)] (by decide) [⟨0, true, 0⟩] (by decide) (by decide)

/-- C4: an `Instruction` entry changes nothing; every other entry bumps
exactly one of hits/misses according to the access outcome (`Hit`: one hit;
`MissNoEvict`: one miss; `MissWithEvict`: one miss and one eviction), and a
`Modify` entry additionally gets one unconditional extra hit. -/
theorem c4_replayer_counters (s b : Nat) (st : SimState) (c : Char) (a : Nat) :
    (step s b st 'I' a = st) ∧
    (c ≠ 'I' →
      (step s b st c a).hits = st.hits +
        (if (set_access (st.cache.getD (set_index_code a s b) []) (tag_code a s b)).1 =
            Outcome.Hit then 1 else 0) +
        (if c = 'M' then 1 else 0) ∧
      (step s b st c a).misses = st.misses +
        (if (set_access (st.cache.getD (set_index_code a s b) []) (tag_code a s b)).1 =
            Outcome.Hit then 0 else 1) ∧
      (step s b st c a).evictions = st.evictions +
        (if (set_access (st.cache.getD (set_index_code a s b) []) (tag_code a s b)).1 =
            Outcome.MissWithEvict then 1 else 0)) := by
  constructor
  · simp [step]
  · intro hI
    unfold step
    rw [if_neg hI]
    dsimp only
    rcases hout : (set_access (st.cache.getD (set_index_code a s b) []) (tag_code a s b)).1 with
      _ | _ | _ <;> by_cases hM : c = 'M' <;> simp [hout, hM]

theorem c4_witness :
    (step 0 0 (init_state 0 1) 'M' 0).hits = (init_state 0 1).hits +
      (if (set_access ((init_state 0 1).cache.getD (set_index_code 0 0 0) [])
          (tag_code 0 0 0)).1 = Outcome.Hit then 1 else 0) +
      (if ('M' : Char) = 'M' then 1 else 0) :=
  ((c4_replayer_counters 0 0 (init_state 0 1) 'M' 0).2 (by decide)).1

/-- C9: replaying a parsed trace gives exactly the same final state as
replaying it with every `Instruction` entry removed; an `Instruction` entry
leaves the whole state (cache included) untouched, so such entries never
reach the cache. -/
theorem c9_instruction_filter (s b : Nat) (st : SimState) (es : List (Char × Nat)) :
    replayEntries s b st es = replayEntries s b st (es.filter fun e => !(e.1 == 'I')) ∧
    ∀ (a : Nat) (st' : SimState), step s b st' 'I' a = st' := by
  constructor
  · induction es generalizing st with
    | nil => rfl
    | cons e es ih =>
      by_cases hI : e.1 = 'I'
      · have hstep : step s b st e.1 e.2 = st := by simp [step, hI]
        have hfil : (e :: es).filter (fun e => !(e.1 == 'I')) =
            es.filter fun e => !(e.1 == 'I') := by
          simp [List.filter_cons, hI]
        rw [hfil, replayEntries, hstep]
        exact ih st
      · have hfil : (e :: es).filter (fun e => !(e.1 == 'I')) =
            e :: es.filter fun e => !(e.1 == 'I') := by
          simp [List.filter_cons, hI]
        rw [hfil, replayEntries, replayEntries]
        exact ih (step s b st e.1 e.2)
  · intro a st'
    simp [step]

/-- C10: any entry whose kind letter is neither `I` nor `M` — `L`, `S` or
any other character — is processed exactly like a load of the same address:
the kind only matters through the two equality tests of `main`. -/
theorem c10_kind_irrelevant (s b : Nat) (st : SimState) (c : Char) (a : Nat)
    (hI : c ≠ 'I') (hM : c ≠ 'M') : step s b st c a = step s b st 'L' a := by
  unfold step
  rw [if_neg hI, if_neg (by decide : ¬('L' : Char) = 'I')]
  dsimp only
  rw [if_neg hM, if_neg (by decide : ¬('L' : Char) = 'M')]

theorem c10_witness :
    step 0 0 (init_state 0 1) 'S' 0 = step 0 0 (init_state 0 1) 'L' 0 :=
  c10_kind_irrelevant 0 0 (init_state 0 1) 'S' 0 (by decide) (by decide)

/-- C1: for every access on a set satisfying the rank invariant (any
associativity `E ≥ 1`): a valid line with the accessed tag makes the outcome
`Hit` and changes no tag or valid flag; otherwise, if an invalid line exists,
the first one in index order receives the accessed tag and `valid = true`
with outcome `MissNoEvict`; otherwise the line whose rank is `E - 1` (unique
under the invariant) has its tag overwritten, keeps `valid = true`, every
other line keeps its tag and valid flag, and the outcome is
`MissWithEvict`. -/
theorem c1_set_access_cases (E : Nat) (set : List cache_line) (hlen : set.length = E)
    (hE : 1 ≤ E) (hinv : Inv set) (tg : Int) :
    ((∃ l ∈ set, l.valid = true ∧ l.tag = tg) →
      (set_access set tg).1 = Outcome.Hit ∧
      ((set_access set tg).2).map (fun l => (l.tag, l.valid)) =
        set.map (fun l => (l.tag, l.valid))) ∧
    ((∀ l ∈ set, l.valid = true → l.tag ≠ tg) → (∃ l ∈ set, l.valid = false) →
      (set_access set tg).1 = Outcome.MissNoEvict ∧
      ∃ i, i < E ∧ (set.getD i default).valid = false ∧
        (∀ j, j < i → (set.getD j default).valid = true) ∧
        (((set_access set tg).2).getD i default).tag = tg ∧
        (((set_access set tg).2).getD i default).valid = true) ∧
    ((∀ l ∈ set, l.valid = true ∧ l.tag ≠ tg) →
      (set_access set tg).1 = Outcome.MissWithEvict ∧
      ∃ i, i < E ∧ (set.getD i default).lru_cntr = E - 1 ∧
        (∀ j, j < E → (set.getD j default).lru_cntr = E - 1 → j = i) ∧
        (((set_access set tg).2).getD i default).tag = tg ∧
        (((set_access set tg).2).getD i default).valid = true ∧
        (∀ j, j < E → j ≠ i →
          (((set_access set tg).2).getD j default).tag = (set.getD j default).tag ∧
          (((set_access set tg).2).getD j default).valid = (set.getD j default).valid)) := by
  refine ⟨?_, ?_, ?_⟩
  · rintro ⟨l, hl, hv, ht⟩
    obtain ⟨i, hi⟩ := firstIdx_isSome_of_mem (fun l => l.valid && l.tag == tg) set l hl
      (by simp [hv, ht])
    have hcl : cache_lookup set tg =
        (.hit, update_lru_cntr set (set.getD i default).lru_cntr) := by
      rw [cache_lookup, hi]
    rw [set_access, hcl]
    exact ⟨rfl, update_map_tag_valid set _⟩
  · intro hnom hex
    obtain ⟨l, hl, hlv⟩ := hex
    have hnone : firstIdx (fun l => l.valid && l.tag == tg) set = none := by
      rw [firstIdx_eq_none_iff]
      intro x hx
      by_cases hv : x.valid = true
      · have := hnom x hx hv
        simp [hv, this]
      · rw [Bool.not_eq_true] at hv
        simp [hv]
    obtain ⟨i, hi⟩ := firstIdx_isSome_of_mem (fun l => !l.valid) set l hl (by simp [hlv])
    obtain ⟨hilen, hip, hifst⟩ := (firstIdx_eq_some_iff _ set i).mp hi
    have hvali : (set.getD i default).valid = false := by simpa using hip
    have hcl : cache_lookup set tg =
        (.replace i, update_lru_cntr set (set.getD i default).lru_cntr) := by
      rw [cache_lookup, hnone, hi]
    have hupdlen : (update_lru_cntr set (set.getD i default).lru_cntr).length = set.length :=
      update_length set _
    have hvalid1 :
        ((update_lru_cntr set (set.getD i default).lru_cntr).getD i default).valid = false := by
      rw [update_getD_valid set _ i hilen, hvali]
    have hsa : set_access set tg = (Outcome.MissNoEvict,
        (update_lru_cntr set (set.getD i default).lru_cntr).set i
          { (update_lru_cntr set (set.getD i default).lru_cntr).getD i default with
              tag := tg, valid := true }) := by
      rw [set_access, hcl]
      dsimp only
      rw [hvalid1]
      simp
    rw [hsa]
    refine ⟨rfl, i, by omega, hvali, ?_, ?_, ?_⟩
    · intro j hj
      simpa using hifst j hj
    · rw [getD_set_self _ i _ default (by rw [hupdlen]; exact hilen)]
    · rw [getD_set_self _ i _ default (by rw [hupdlen]; exact hilen)]
  · intro hall
    have hnone1 : firstIdx (fun l => l.valid && l.tag == tg) set = none := by
      rw [firstIdx_eq_none_iff]
      intro x hx
      have hx' := hall x hx
      simp [hx'.1, hx'.2]
    have hnone2 : firstIdx (fun l => !l.valid) set = none := by
      rw [firstIdx_eq_none_iff]
      intro x hx
      simp [(hall x hx).1]
    obtain ⟨v, hvlen, hfv, hvrank⟩ := find_victim_inv set hinv (by omega)
    have hcl : cache_lookup set tg =
        (.replace (find_victim set).2, update_lru_cntr set (set.length - 1)) := by
      rw [cache_lookup, hnone1, hnone2]
    have hv2 : (find_victim set).2 = v := by rw [hfv]
    have hupdlen := update_length set (set.length - 1)
    have hvalid1 : ((update_lru_cntr set (set.length - 1)).getD v default).valid = true := by
      rw [update_getD_valid set _ v hvlen]
      exact (hall _ (getD_mem set v hvlen default)).1
    have hsa : set_access set tg = (Outcome.MissWithEvict,
        (update_lru_cntr set (set.length - 1)).set v
          { (update_lru_cntr set (set.length - 1)).getD v default with tag := tg }) := by
      rw [set_access, hcl, hv2]
      dsimp only
      rw [hvalid1]
      simp
    rw [hsa]
    rw [hlen] at hvrank
    refine ⟨rfl, v, by omega, hvrank, ?_, ?_, ?_, ?_⟩
    · intro j hj hjrank
      apply inv_rank_inj set hinv j v (by omega) hvlen
      rw [hjrank, hvrank]
    · rw [getD_set_self _ v _ default (by rw [hupdlen]; exact hvlen)]
    · rw [getD_set_self _ v _ default (by rw [hupdlen]; exact hvlen)]
      exact hvalid1
    · intro j hj hjne
      rw [getD_set_ne _ v j _ default hjne]
      exact ⟨update_getD_tag set _ j (by omega), update_getD_valid set _ j (by omega)⟩

theorem c1_witness :
    (set_access [⟨5, true, 0⟩] 5).1 = Outcome.Hit ∧
      ((set_access [⟨5, true, 0⟩] 5).2).map (fun l => (l.tag, l.valid)) =
        ([⟨5, true, 0⟩] : List cache_line).map (fun l => (l.tag, l.valid)) :=
  (c1_set_access_cases 1 [⟨5, true, 0⟩] (by decide) (by decide) (by decide) 5).1 (by decide)

/-! ### Address decomposition (claim C8) -/

theorem sshiftr_eq_ediv (x : Int) (k : Nat) : sshiftr x k = x / 2 ^ k := by
  rw [sshiftr]
  exact Int.fdiv_eq_ediv x (by positivity)

theorem pow_cast_int (k : Nat) : ((2 : Int) ^ k) = ((2 ^ k : Nat) : Int) := by
  push_cast
  rfl

theorem sshiftr_nonneg (a k : Nat) : sshiftr (a : Int) k = ((a / 2 ^ k : Nat) : Int) := by
  rw [sshiftr_eq_ediv, pow_cast_int]
  exact (Int.ofNat_ediv a (2 ^ k)).symm

theorem sshiftr_wrap (a k : Nat) (hk : k ≤ 64) :
    sshiftr ((a : Int) - 2 ^ 64) k = ((a / 2 ^ k : Nat) : Int) - 2 ^ (64 - k) := by
  have hpow : ((2 : Int) ^ (64 - k)) * 2 ^ k = 2 ^ 64 := by
    rw [← pow_add]
    congr 1
    omega
  have hrw : (a : Int) - 2 ^ 64 = (a : Int) + (-(2 ^ (64 - k))) * 2 ^ k := by
    rw [neg_mul, hpow]
    ring
  have hne : ((2 : Int) ^ k) ≠ 0 := by positivity
  rw [sshiftr_eq_ediv, hrw, Int.add_mul_ediv_right _ _ hne, pow_cast_int k,
    ← Int.ofNat_ediv]
  ring

/-- C8 is corrected: the code stores the address in a signed `long long`, so
for an address with the top bit set the computed tag is the sign-extending
arithmetic shift, not the unsigned shift of the claim.  At
`address = 2^63, s = 1, b = 1` the code computes `-(2^61)` while the claimed
formula gives `2^61`. -/
theorem c8_counterexample :
    tag_code (2 ^ 63) 1 1 = -(2 ^ 61) ∧
    ((decode_claim (2 ^ 63) 1 1).1 : Int) = 2 ^ 61 ∧
    tag_code (2 ^ 63) 1 1 ≠ ((decode_claim (2 ^ 63) 1 1).1 : Int) := by
  refine ⟨by decide, by decide, by decide⟩

/-- C8 as amended: for every 64-bit address and configuration with
`s + b ≤ 64`, the computed set index equals the claimed
`(address >> b) & ((1 << s) - 1)`; the computed tag equals the claimed
`address >> (s+b)` for addresses below `2^63`, and equals the claimed value
minus the sign-extension constant `2^(64-(s+b))` for addresses with the top
bit set.  Both functions are total with no failure mode. -/
theorem c8_amended_decode (addr s b : Nat) (h64 : addr < 2 ^ 64) (hsb : s + b ≤ 64) :
    set_index_code addr s b = (decode_claim addr s b).2 ∧
    (addr < 2 ^ 63 → tag_code addr s b = ((decode_claim addr s b).1 : Int)) ∧
    (2 ^ 63 ≤ addr → tag_code addr s b =
      ((decode_claim addr s b).1 : Int) - 2 ^ (64 - (s + b))) := by
  have hfin : ∀ m : Nat, (((m : Int) % (2 ^ s : Int)).toNat = m % 2 ^ s) := by
    intro m
    rw [pow_cast_int, ← Int.ofNat_emod, Int.toNat_ofNat]
  refine ⟨?_, ?_, ?_⟩
  · unfold set_index_code decode_claim toSigned64
    by_cases h : addr < 2 ^ 63
    · rw [if_pos h, sshiftr_nonneg]
      simp only [Nat.shiftRight_eq_div_pow]
      exact hfin (addr / 2 ^ b)
    · rw [if_neg h, sshiftr_wrap addr b (by omega)]
      have hdvd : ((2 : Int) ^ s) ∣ 2 ^ (64 - b) := pow_dvd_pow 2 (by omega)
      have hmod : (((addr / 2 ^ b : Nat) : Int) - 2 ^ (64 - b)) % (2 ^ s : Int) =
          ((addr / 2 ^ b : Nat) : Int) % (2 ^ s : Int) := by
        rw [Int.sub_emod, Int.emod_eq_zero_of_dvd hdvd, sub_zero, Int.emod_emod]
      rw [hmod]
      simp only [Nat.shiftRight_eq_div_pow]
      exact hfin (addr / 2 ^ b)
  · intro h
    unfold tag_code decode_claim toSigned64
    rw [if_pos h, sshiftr_nonneg, Nat.shiftRight_eq_div_pow]
  · intro h
    unfold tag_code decode_claim toSigned64
    rw [if_neg (by omega), sshiftr_wrap addr (s + b) hsb, Nat.shiftRight_eq_div_pow]

theorem c8_amended_witness :
    set_index_code (2 ^ 63) 1 1 = (decode_claim (2 ^ 63) 1 1).2 ∧
    (2 ^ 63 < 2 ^ 63 → tag_code (2 ^ 63) 1 1 = ((decode_claim (2 ^ 63) 1 1).1 : Int)) ∧
    (2 ^ 63 ≤ 2 ^ 63 → tag_code (2 ^ 63) 1 1 =
      ((decode_claim (2 ^ 63) 1 1).1 : Int) - 2 ^ (64 - (1 + 1))) :=
  c8_amended_decode (2 ^ 63) 1 1 (by norm_num) (by norm_num)

/-! ### Trace scanning (claim C7) -/

theorem skipWS_length_le (cs : List Char) : (skipWS cs).length ≤ cs.length := by
  induction cs with
  | nil => simp [skipWS]
  | cons c cs ih =>
    by_cases h : isWS c
    · simp only [skipWS, h, if_true, List.length_cons]
      omega
    · simp [skipWS, h]

theorem parseHexLoop_length_le (cs : List Char) :
    ∀ acc, ((parseHexLoop acc cs).2).length ≤ cs.length := by
  induction cs with
  | nil => intro acc; simp [parseHexLoop]
  | cons c cs ih =>
    intro acc
    rcases hv : hexVal c with _ | d
    · simp [parseHexLoop, hv]
    · simp only [parseHexLoop, hv]
      have := ih ((acc * 16 + d) % 2 ^ 64)
      simpa using Nat.le_succ_of_le this

theorem parseHex_length_le (cs : List Char) (a : Nat) (r : List Char)
    (h : parseHex cs = some (a, r)) : r.length ≤ cs.length := by
  cases cs with
  | nil => simp [parseHex] at h
  | cons c cs =>
    rcases hv : hexVal c with _ | d
    · simp [parseHex, hv] at h
    · simp only [parseHex, hv] at h
      have hr : r = (parseHexLoop (d % 2 ^ 64) cs).2 := by
        have := congrArg (fun p => (Prod.snd p)) (Option.some.inj h)
        simpa using this.symm
      rw [hr]
      have := parseHexLoop_length_le cs (d % 2 ^ 64)
      simpa using Nat.le_succ_of_le this

theorem dropDec_length_le (cs : List Char) : (dropDec cs).length ≤ cs.length := by
  induction cs with
  | nil => simp [dropDec]
  | cons c cs ih =>
    by_cases h : isDec c
    · simp only [dropDec, h, if_true, List.length_cons]
      omega
    · simp [dropDec, h]

theorem scanTail_length_le (cs : List Char) : (scanTail cs).length ≤ cs.length := by
  cases cs with
  | nil => simp [scanTail]
  | cons c cs =>
    simp only [scanTail]
    have h1 := dropDec_length_le (skipWS cs)
    have h2 := skipWS_length_le cs
    simp only [List.length_cons]
    omega

theorem scanEntry_shrink (cs : List Char) (c : Char) (a : Nat) (rest : List Char)
    (h : scanEntry cs = some (c, a, rest)) : rest.length < cs.length := by
  rcases hws : skipWS cs with _ | ⟨ch, cs1⟩
  · rw [scanEntry, hws] at h; cases h
  · have hun : scanEntry cs = (match parseHex (skipWS cs1) with
        | none => none
        | some (a, cs2) => some (ch, a, scanTail cs2)) := by
      rw [scanEntry, hws]
    rcases hph : parseHex (skipWS cs1) with _ | ⟨a', cs2⟩
    · rw [hun, hph] at h; cases h
    · rw [hun, hph] at h
      have hrest : rest = scanTail cs2 := by
        have := congrArg (fun p => (Prod.snd (Prod.snd p))) (Option.some.inj h)
        simpa using this.symm
      have h1 : cs1.length + 1 ≤ cs.length := by
        have := skipWS_length_le cs
        rw [hws] at this
        simpa using this
      have h2 : cs2.length ≤ (skipWS cs1).length := parseHex_length_le _ _ _ hph
      have h3 : (skipWS cs1).length ≤ cs1.length := skipWS_length_le cs1
      have h4 : (scanTail cs2).length ≤ cs2.length := scanTail_length_le cs2
      rw [hrest]
      omega

theorem replayAux_fuel_irrel (s b : Nat) :
    ∀ f1 f2 (cs : List Char) (st : SimState), cs.length < f1 → cs.length < f2 →
      replayAux s b f1 cs st = replayAux s b f2 cs st := by
  intro f1
  induction f1 with
  | zero => intro f2 cs st h1 h2; omega
  | succ f1 ih =>
    intro f2 cs st h1 h2
    cases f2 with
    | zero => omega
    | succ f2 =>
      rcases hse : scanEntry cs with _ | ⟨c, a, rest⟩
      · simp [replayAux, hse]
      · have hlt := scanEntry_shrink cs c a rest hse
        simp only [replayAux, hse]
        exact ih f2 rest (step s b st c a) (by omega) (by omega)

/-- C7 is corrected: the code does not skip a malformed line and continue.
The loop condition `fscanf(...) == 2` makes the replay stop consuming input
at the first point where the access-type character and a hex address cannot
both be scanned: once parsing fails, no later line — well-formed or not — is
ever processed.  Here the trace `"L zz,1\nL 8,1\n"` has an unparsable
address on its first line, and the code counts nothing at all (the
well-formed second line would score one miss under the claimed
skip-and-continue policy, as `spec_replay` shows). -/
theorem c7_counterexample :
    (replayChars 0 0 ['L', ' ', 'z', 'z', ',', '1', '\n', 'L', ' ', '8', ',', '1', '\n']
        (init_state 0 1)).misses = 0 ∧
    (spec_replay 0 0 (init_state 0 1)
        ['L', ' ', 'z', 'z', ',', '1', '\n', 'L', ' ', '8', ',', '1', '\n']).misses = 1 := by
  exact ⟨by decide, by decide⟩

/-- C7 as amended: when `fscanf` cannot assign both the access-type
character and the address, the replay loop terminates at that point — the
malformed entry is not classified as a hit or miss, and no subsequent input
(not even later well-formed lines) is consumed; otherwise the scanned entry
is processed and the replay continues.  (An unrecognized access-kind letter
is not a parse failure at all: it scans fine and is processed as a data
access, cf. C10.) -/
theorem c7_amended_stop_on_malformed (s b : Nat) (cs : List Char) (st : SimState) :
    (scanEntry cs = none → replayChars s b cs st = st) ∧
    (∀ c a rest, scanEntry cs = some (c, a, rest) →
      replayChars s b cs st = replayChars s b rest (step s b st c a)) := by
  constructor
  · intro h
    rw [replayChars]
    simp [replayAux, h]
  · intro c a rest h
    have hlt := scanEntry_shrink cs c a rest h
    rw [replayChars, replayChars]
    rw [show replayAux s b (cs.length + 1) cs st =
        replayAux s b cs.length rest (step s b st c a) from by simp [replayAux, h]]
    exact replayAux_fuel_irrel s b cs.length (rest.length + 1) rest (step s b st c a)
      (by omega) (by omega)

theorem c7_witness :
    replayChars 0 0 ['L', ' ', 'z', 'z'] (init_state 0 1) = init_state 0 1 :=
  (c7_amended_stop_on_malformed 0 0 ['L', ' ', 'z', 'z'] (init_state 0 1)).1 (by decide)

/-! ### The LRU law (claim C5) -/

theorem range_getD (E j : Nat) (h : j < E) : (List.range E).getD j 0 = j := by
  rw [List.getD_eq_getElem?_getD, List.getElem?_range h]
  rfl

theorem init_set_getD (E j : Nat) (h : j < E) :
    (init_set E).getD j default = ⟨0, false, j⟩ := by
  unfold init_set
  rw [getD_map_lt _ (List.range E) j (by simpa using h) 0 default]
  rw [range_getD E j h]

/-- A function periodic with period `p` is determined by the residue. -/
theorem T_reduce (T : Nat → Int) (p : Nat) (hper : ∀ m, T (m + p) = T m) (hp : 1 ≤ p) :
    ∀ a, T a = T (a % p) := by
  intro a
  induction a using Nat.strong_induction_on with
  | _ a ih =>
    by_cases h : a < p
    · rw [Nat.mod_eq_of_lt h]
    · have h1 : a - p + p = a := by omega
      have h2 := hper (a - p)
      rw [h1] at h2
      rw [h2, ih (a - p) (by omega)]
      congr 1
      rw [Nat.mod_eq_sub_mod (by omega : p ≤ a)]

/-- `p`-periodic and injective on a period window: two accesses touch the
same tag exactly when their step numbers agree modulo `p`. -/
theorem T_eq_iff (T : Nat → Int) (p : Nat) (hper : ∀ m, T (m + p) = T m) (hp : 1 ≤ p)
    (hinj : ∀ i j, i < p → j < p → T i = T j → i = j) :
    ∀ a c, T a = T c ↔ a % p = c % p := by
  intro a c
  constructor
  · intro h
    rw [T_reduce T p hper hp a, T_reduce T p hper hp c] at h
    exact hinj _ _ (Nat.mod_lt _ (by omega)) (Nat.mod_lt _ (by omega)) h
  · intro h
    rw [T_reduce T p hper hp a, T_reduce T p hper hp c, h]

/-- Filling phase of the cyclic experiment: each of the first `E` accesses is
placed in the next free line. -/
theorem fill_state (T : Nat → Int) (E : Nat)
    (hinj : ∀ i j, i < E + 1 → j < E + 1 → T i = T j → i = j) :
    ∀ n, n ≤ E → FillP T E (run_set T E n) n := by
  intro n
  induction n with
  | zero =>
    intro _
    refine ⟨init_set_length E, ?_⟩
    intro j hj
    simp only [run_set]
    constructor
    · intro h; omega
    · intro _
      rw [init_set_getD E j hj]
      exact ⟨rfl, rfl⟩
  | succ n ih =>
    intro hn1
    have hnE : n < E := by omega
    obtain ⟨hlen, hstate⟩ := ih (by omega)
    have hnone1 : firstIdx (fun l => l.valid && l.tag == T n) (run_set T E n) = none := by
      rw [firstIdx_eq_none_iff]
      intro x hx
      obtain ⟨j, hjlen, hxe⟩ := mem_getD _ x default hx
      have hjE : j < E := by omega
      subst hxe
      by_cases hjn : j < n
      · obtain ⟨hv, ht, -⟩ := (hstate j hjE).1 hjn
        have hne : T j ≠ T n := fun he => absurd (hinj j n (by omega) (by omega) he) (by omega)
        show (((run_set T E n).getD j default).valid &&
          ((run_set T E n).getD j default).tag == T n) = false
        rw [hv, ht]
        exact beq_eq_false_iff_ne.mpr hne
      · obtain ⟨hv, -⟩ := (hstate j hjE).2 (by omega)
        show (((run_set T E n).getD j default).valid &&
          ((run_set T E n).getD j default).tag == T n) = false
        rw [hv]
        rfl
    have hfirst : firstIdx (fun l => !l.valid) (run_set T E n) = some n := by
      rw [firstIdx_eq_some_iff]
      refine ⟨by omega, ?_, ?_⟩
      · obtain ⟨hv, -⟩ := (hstate n hnE).2 (le_refl n)
        show (!((run_set T E n).getD n default).valid) = true
        rw [hv]
        rfl
      · intro j hj
        obtain ⟨hv, -, -⟩ := (hstate j (by omega)).1 hj
        show (!((run_set T E n).getD j default).valid) = false
        rw [hv]
        rfl
    have hr0 : ((run_set T E n).getD n default).lru_cntr = n :=
      ((hstate n hnE).2 (le_refl n)).2
    have hcl : cache_lookup (run_set T E n) (T n) =
        (.replace n, update_lru_cntr (run_set T E n) n) := by
      rw [cache_lookup, hnone1, hfirst]
      dsimp only
      rw [hr0]
    have hvalid1 : ((update_lru_cntr (run_set T E n) n).getD n default).valid = false := by
      rw [update_getD_valid _ n n (by omega)]
      exact ((hstate n hnE).2 (le_refl n)).1
    have hsa : set_access (run_set T E n) (T n) = (Outcome.MissNoEvict,
        (update_lru_cntr (run_set T E n) n).set n
          { (update_lru_cntr (run_set T E n) n).getD n default with
              tag := T n, valid := true }) := by
      rw [set_access, hcl]
      dsimp only
      rw [hvalid1]
      simp
    have hrsucc : run_set T E (n + 1) =
        (update_lru_cntr (run_set T E n) n).set n
          { (update_lru_cntr (run_set T E n) n).getD n default with
              tag := T n, valid := true } := by
      rw [run_set, hsa]
    have hulen : (update_lru_cntr (run_set T E n) n).length = E := by
      rw [update_length]; exact hlen
    refine ⟨by rw [hrsucc, List.length_set]; exact hulen, ?_⟩
    intro j hjE
    constructor
    · intro hjn1
      by_cases hjn : j = n
      · subst hjn
        rw [hrsucc, getD_set_self _ j _ default (by omega)]
        refine ⟨rfl, rfl, ?_⟩
        have : ((update_lru_cntr (run_set T E j) j).getD j default).lru_cntr =
            bump j ((run_set T E j).getD j default).lru_cntr :=
          update_getD_lru _ j j (by omega)
        simp only [this, hr0, bump]
        simp
      · have hjn' : j < n := by omega
        obtain ⟨hv, ht, hr⟩ := (hstate j hjE).1 hjn'
        rw [hrsucc, getD_set_ne _ n j _ default hjn]
        have hlru := update_getD_lru (run_set T E n) n j (by omega)
        have htag := update_getD_tag (run_set T E n) n j (by omega)
        have hval := update_getD_valid (run_set T E n) n j (by omega)
        refine ⟨by rw [hval]; exact hv, by rw [htag]; exact ht, ?_⟩
        rw [hlru, hr, bump, if_pos (by omega)]
        omega
    · intro hjn1
      have hjn : j ≠ n := by omega
      obtain ⟨hv, hr⟩ := (hstate j hjE).2 (by omega)
      rw [hrsucc, getD_set_ne _ n j _ default hjn]
      have hlru := update_getD_lru (run_set T E n) n j (by omega)
      have hval := update_getD_valid (run_set T E n) n j (by omega)
      refine ⟨by rw [hval]; exact hv, ?_⟩
      rw [hlru, hr, bump, if_neg (by omega), if_neg (by omega)]

theorem run_inv (T : Nat → Int) (E : Nat) : ∀ n, Inv (run_set T E n) := by
  intro n
  induction n with
  | zero => exact init_set_inv E
  | succ n ih => exact (set_access_inv _ (T n) ih).1

/-- At `n = E` the filled set satisfies the steady-state invariant: the line
of rank `r` holds the tag accessed at step `n - 1 - r`. -/
theorem steady_of_fill (T : Nat → Int) (E : Nat) (hE : 1 ≤ E) (S : List cache_line)
    (hf : FillP T E S E) : SteadyP T E S E := by
  obtain ⟨hlen, hstate⟩ := hf
  refine ⟨hlen, fun j hj => ?_⟩
  obtain ⟨hv, ht, hr⟩ := (hstate j hj).1 hj
  refine ⟨hv, by rw [hr]; omega, ?_⟩
  rw [ht, hr]
  congr 1
  omega

/-- One access in the steady state: a guaranteed miss, eviction of the line
of rank `E-1` (the tag accessed at step `n - E`), and re-establishment of
the steady-state invariant. -/
theorem steady_step (T : Nat → Int) (E n : Nat) (hE : 1 ≤ E)
    (hTiff : ∀ a c, T a = T c ↔ a % (E + 1) = c % (E + 1))
    (hn : E ≤ n) (S : List cache_line) (hs : SteadyP T E S n) (hinv : Inv S) :
    (set_access S (T n)).1 = Outcome.MissWithEvict ∧
    evictedTag S (T n) = some (T (n - E)) ∧
    SteadyP T E ((set_access S (T n)).2) (n + 1) := by
  obtain ⟨hlen, hstate⟩ := hs
  have hnone1 : firstIdx (fun l => l.valid && l.tag == T n) S = none := by
    rw [firstIdx_eq_none_iff]
    intro x hx
    obtain ⟨j, hjlen, hxe⟩ := mem_getD _ x default hx
    subst hxe
    obtain ⟨hv, hrlt, ht⟩ := hstate j (by omega)
    have hne : (S.getD j default).tag ≠ T n := by
      rw [ht]
      intro he
      have hmod := (hTiff _ _).mp he
      have hd : (E + 1) ∣ (n - (n - 1 - (S.getD j default).lru_cntr)) :=
        (Nat.modEq_iff_dvd' (by omega)).mp hmod
      have harg : n - (n - 1 - (S.getD j default).lru_cntr) =
          (S.getD j default).lru_cntr + 1 := by omega
      rw [harg] at hd
      have := Nat.le_of_dvd (by omega) hd
      omega
    show ((S.getD j default).valid && (S.getD j default).tag == T n) = false
    rw [hv]
    exact beq_eq_false_iff_ne.mpr hne
  have hnone2 : firstIdx (fun l => !l.valid) S = none := by
    rw [firstIdx_eq_none_iff]
    intro x hx
    obtain ⟨j, hjlen, hxe⟩ := mem_getD _ x default hx
    subst hxe
    obtain ⟨hv, -, -⟩ := hstate j (by omega)
    show (!(S.getD j default).valid) = false
    rw [hv]
    rfl
  obtain ⟨v, hvlen, hfv, hvrank⟩ := find_victim_inv S hinv (by omega)
  have hcl : cache_lookup S (T n) =
      (.replace v, update_lru_cntr S (S.length - 1)) := by
    rw [cache_lookup, hnone1, hnone2, hfv]
  have hvvalid : (S.getD v default).valid = true := (hstate v (by omega)).1
  have hvalid1 : ((update_lru_cntr S (S.length - 1)).getD v default).valid = true := by
    rw [update_getD_valid _ _ v hvlen]
    exact hvvalid
  have hsa : set_access S (T n) = (Outcome.MissWithEvict,
      (update_lru_cntr S (S.length - 1)).set v
        { (update_lru_cntr S (S.length - 1)).getD v default with tag := T n }) := by
    rw [set_access, hcl]
    dsimp only
    rw [hvalid1]
    simp
  have hvtag : (S.getD v default).tag = T (n - E) := by
    obtain ⟨-, -, ht⟩ := hstate v (by omega)
    rw [ht, hvrank, hlen]
    congr 1
    omega
  have het : evictedTag S (T n) = some (T (n - E)) := by
    rw [evictedTag, hcl]
    dsimp only
    rw [hvalid1]
    simp only [if_true]
    rw [update_getD_tag _ _ v hvlen, hvtag]
  refine ⟨by rw [hsa], het, ?_⟩
  have hulen : (update_lru_cntr S (S.length - 1)).length = E := by
    rw [update_length]; exact hlen
  refine ⟨by rw [hsa]; dsimp only; rw [List.length_set]; exact hulen, ?_⟩
  intro j hj
  rw [hsa]
  dsimp only
  by_cases hjv : j = v
  · subst hjv
    rw [getD_set_self _ j _ default (by omega)]
    have hlru : ((update_lru_cntr S (S.length - 1)).getD j default).lru_cntr =
        bump (S.length - 1) (S.getD j default).lru_cntr :=
      update_getD_lru _ _ j hvlen
    have hb : bump (S.length - 1) ((S.getD j default).lru_cntr) = 0 := by
      rw [hvrank, bump, if_neg (lt_irrefl _), if_pos rfl]
    refine ⟨hvalid1, ?_, ?_⟩
    · rw [hlru, hb]
      omega
    · rw [hlru, hb]
      show T n = T (n + 1 - 1 - 0)
      congr 1
  · rw [getD_set_ne _ v j _ default hjv]
    obtain ⟨hv', hrlt, ht⟩ := hstate j (by omega)
    have hrne : (S.getD j default).lru_cntr ≠ E - 1 := by
      intro hr
      apply hjv
      apply inv_rank_inj S hinv j v (by omega) hvlen
      rw [hr, hvrank, hlen]
    have hlru := update_getD_lru S (S.length - 1) j (by omega)
    have htag := update_getD_tag S (S.length - 1) j (by omega)
    have hval := update_getD_valid S (S.length - 1) j (by omega)
    refine ⟨by rw [hval]; exact hv', ?_, ?_⟩
    · rw [hlru, bump, if_pos (by omega)]
      omega
    · rw [htag, hlru, bump, if_pos (by omega), ht]
      congr 1
      omega

/-- The steady-state invariant holds after every `n ≥ E` accesses. -/
theorem steady_all (T : Nat → Int) (E : Nat) (hE : 1 ≤ E)
    (hTiff : ∀ a c, T a = T c ↔ a % (E + 1) = c % (E + 1))
    (hinj : ∀ i j, i < E + 1 → j < E + 1 → T i = T j → i = j) :
    ∀ n, E ≤ n → SteadyP T E (run_set T E n) n := by
  intro n hn
  induction n, hn using Nat.le_induction with
  | base => exact steady_of_fill T E hE _ (fill_state T E hinj E (le_refl E))
  | succ n hn ih =>
    exact (steady_step T E n hE hTiff hn _ ih (run_inv T E n)).2.2

/-- C5: with associativity `E`, cycling through `E+1` distinct tags mapped to
one set (access `m` touches tag `T m`, where `T` has period `E+1` and is
injective on one period), every access after the first full cycle of `E+1`
accesses is a `MissWithEvict`; the evicted tag is the one accessed at step
`n - E`, which is the least recently touched of the `E` resident tags: every
other resident tag was accessed at some step in `(n-E, n)`, while the
evicted one was not. -/
theorem c5_lru_thrashing (E : Nat) (T : Nat → Int) (hE : 1 ≤ E)
    (hper : ∀ m, T (m + (E + 1)) = T m)
    (hinj : ∀ i j, i < E + 1 → j < E + 1 → T i = T j → i = j)
    (n : Nat) (hn : E + 1 ≤ n) :
    (set_access (run_set T E n) (T n)).1 = Outcome.MissWithEvict ∧
    evictedTag (run_set T E n) (T n) = some (T (n - E)) ∧
    (∀ m, n - E < m → m < n → T m ≠ T (n - E)) ∧
    (∀ l ∈ run_set T E n, l.valid = true ∧
      (l.tag ≠ T (n - E) → ∃ m, n - E < m ∧ m < n ∧ T m = l.tag)) := by
  have hTiff := T_eq_iff T (E + 1) hper (by omega) hinj
  have hst := steady_all T E hE hTiff hinj n (by omega)
  have hinv := run_inv T E n
  obtain ⟨h1, h2, -⟩ := steady_step T E n hE hTiff (by omega) _ hst hinv
  refine ⟨h1, h2, ?_, ?_⟩
  · intro m hm1 hm2 he
    have hmod := (hTiff m (n - E)).mp he
    have hd : (E + 1) ∣ (m - (n - E)) :=
      (Nat.modEq_iff_dvd' (by omega)).mp hmod.symm
    have hpos : 0 < m - (n - E) := by omega
    have := Nat.le_of_dvd hpos hd
    omega
  · obtain ⟨hlen, hstate⟩ := hst
    intro l hl
    obtain ⟨j, hjlen, hle⟩ := mem_getD _ l default hl
    obtain ⟨hv, hrlt, ht⟩ := hstate j (by omega)
    subst hle
    refine ⟨hv, ?_⟩
    intro hne
    have hrne : ((run_set T E n).getD j default).lru_cntr ≠ E - 1 := by
      intro hr
      apply hne
      rw [ht, hr]
      congr 1
      omega
    refine ⟨n - 1 - ((run_set T E n).getD j default).lru_cntr, by omega, by omega, ht.symm⟩

theorem c5_witness :
    (set_access (run_set T0 1 2) (T0 2)).1 = Outcome.MissWithEvict ∧
    evictedTag (run_set T0 1 2) (T0 2) = some (T0 (2 - 1)) := by
  have h := c5_lru_thrashing 1 T0 (by decide)
    (fun m => by simp [T0, Nat.add_mod_right])
    (by intro i j hi hj he; interval_cases i <;> interval_cases j <;> simp_all [T0])
    2 (by decide)
  exact ⟨h.1, h.2.1⟩

end Csim
